import Mathlib

/-!
Shallow embedding of the metadata search engine
(`src/search_engine.py`, data model in `src/models.py`).

Strings are modelled as `List Char` (`Str`); Python floats are modelled
as rationals (the engine only ever adds the exactly-representable
constants 1.0 and 0.5); Python dicts (insertion-ordered since 3.7) are
modelled as association lists that update in place and append new keys
at the end; Python sets of source files are modelled as duplicate-free
lists in insertion order (no claim depends on set iteration order).
-/

namespace SearchSpec

abbrev Str := List Char

/-- `models.ColumnMetadata`. -/
structure ColumnMetadata where
  name : Str
  title : Str
  description : Str
  datatype : Str
  required : Bool
deriving DecidableEq, Repr

/-- `models.TableMetadata`. -/
structure TableMetadata where
  seal_id : Option Int
  dataset_id : Str
  table_loc : Str
  table_title : Str
  table_description : Str
  keywords : List Str
  columns : List ColumnMetadata
  source_file : Str
  source_type : Str
deriving DecidableEq, Repr

/-- `models.TableDescription`. -/
structure TableDescription where
  table_name : Str
  purpose : Str
  key_features : List Str
  joinable_features : List Str
  source_file : Str
  source_type : Str
deriving DecidableEq, Repr

/-- `models.SearchResult`. -/
structure SearchResult where
  table_metadata : Option TableMetadata
  table_description : Option TableDescription
  relevance_score : ℚ
  match_reasons : List Str
deriving DecidableEq, Repr

/-- Python `\w` on the ASCII range: letters, digits, underscore. -/
def isWordChar (c : Char) : Bool := c.isAlphanum || c == '_'

/-- Maximal runs of word characters (the effect of `re.findall(r'\b\w+\b', s)`). -/
def tokenizeAux : List Char → List Char → List Str
  | [], acc => if acc.isEmpty then [] else [acc.reverse]
  | c :: rest, acc =>
    if isWordChar c then tokenizeAux rest (c :: acc)
    else if acc.isEmpty then tokenizeAux rest []
    else acc.reverse :: tokenizeAux rest []

/-- `re.findall(r'\b\w+\b', text.lower())`. -/
def tokens (text : Str) : List Str := tokenizeAux (text.map Char.toLower) []

/-- Tokens kept by the engine: length strictly greater than 2
(`_index_text` and `search` both skip shorter tokens). -/
def keptTokens (text : Str) : List Str := (tokens text).filter (fun t => 2 < t.length)

/-- Python `a.startswith(b)` on char lists (`b` matched at the head of `a`). -/
def isPre : Str → Str → Bool
  | [], _ => true
  | _ :: _, [] => false
  | a :: as, b :: bs => a == b && isPre as bs

/-- Python `p in s` (substring containment). -/
def isSub : Str → Str → Bool
  | p, [] => isPre p []
  | p, c :: rest => isPre p (c :: rest) || isSub p rest

def yamlExt : Str := ['.', 'y', 'a', 'm', 'l']
def txtExt : Str := ['.', 't', 'x', 't']

/-- Python `s.replace('.yaml', '.txt')`: replace every non-overlapping
occurrence, scanning left to right. -/
def replaceYamlTxt : Str → Str
  | [] => []
  | c :: rest =>
    if isPre yamlExt (c :: rest) then txtExt ++ replaceYamlTxt (rest.drop 4)
    else c :: replaceYamlTxt rest
termination_by s => s.length
decreasing_by
  · simp only [List.length_drop, List.length_cons]
    omega
  · simp only [List.length_cons]
    omega

/-- The inverted index `keyword_index`: token → source files, an
insertion-ordered dict of insertion-ordered duplicate-free file lists. -/
abbrev Index := List (Str × List Str)

/-- Python `set.add` modelled on insertion-ordered duplicate-free lists. -/
def addToSet (l : List Str) (sf : Str) : List Str :=
  if sf ∈ l then l else l ++ [sf]

/-- Add `sf` to the index entry of `kw`, creating the entry at the end if absent. -/
def indexInsert : Index → Str → Str → Index
  | [], kw, sf => [(kw, [sf])]
  | (k, fs) :: rest, kw, sf =>
    if k = kw then (k, addToSet fs sf) :: rest
    else (k, fs) :: indexInsert rest kw sf

/-- `SearchEngine._index_text`. -/
def indexText (idx : Index) (text : Str) (sf : Str) : Index :=
  (keptTokens text).foldl (fun i kw => indexInsert i kw sf) idx

/-- The YAML part of `SearchEngine._build_index`: title, description,
location, keywords, then per column name/title/description. -/
def indexYaml (idx : Index) (m : TableMetadata) : Index :=
  let i1 := indexText idx m.table_title m.source_file
  let i2 := indexText i1 m.table_description m.source_file
  let i3 := indexText i2 m.table_loc m.source_file
  let i4 := m.keywords.foldl (fun i kw => indexText i kw m.source_file) i3
  m.columns.foldl
    (fun i c =>
      indexText (indexText (indexText i c.name m.source_file) c.title m.source_file)
        c.description m.source_file) i4

/-- The TXT part of `SearchEngine._build_index`: table name, purpose,
then key features followed by joinable features. -/
def indexTxt (idx : Index) (d : TableDescription) : Index :=
  let i1 := indexText idx d.table_name d.source_file
  let i2 := indexText i1 d.purpose d.source_file
  (d.key_features ++ d.joinable_features).foldl (fun i f => indexText i f d.source_file) i2

/-- `SearchEngine._build_index`: index all YAML records, then all TXT records. -/
def buildIndex (yaml : List TableMetadata) (txt : List TableDescription) : Index :=
  txt.foldl indexTxt (yaml.foldl indexYaml [])

def indexLookup : Index → Str → Option (List Str)
  | [], _ => none
  | (k, fs) :: rest, kw => if k = kw then some fs else indexLookup rest kw

/-- `self.yaml_by_file[sf]` (a dict comprehension: a later record with the
same `source_file` overwrites an earlier one). -/
def yamlByFile (yaml : List TableMetadata) (sf : Str) : Option TableMetadata :=
  yaml.reverse.find? (fun m => decide (m.source_file = sf))

/-- `self.txt_by_file[sf]`. -/
def txtByFile (txt : List TableDescription) (sf : Str) : Option TableDescription :=
  txt.reverse.find? (fun d => decide (d.source_file = sf))

def apos : Char := Char.ofNat 39

/-- `f"Matched keyword: '{keyword}'"`. -/
def exactReason (kw : Str) : Str :=
  ['M', 'a', 't', 'c', 'h', 'e', 'd', ' ', 'k', 'e', 'y', 'w', 'o', 'r', 'd', ':', ' ']
    ++ apos :: kw ++ [apos]

/-- `f"Partial match: '{keyword}' in '{indexed_keyword}'"` — the string the
code *tests* for membership before appending a partial-match reason. -/
def partialReasonIn (kw ik : Str) : Str :=
  ['P', 'a', 'r', 't', 'i', 'a', 'l', ' ', 'm', 'a', 't', 'c', 'h', ':', ' ']
    ++ apos :: kw ++ apos :: [' ', 'i', 'n', ' '] ++ apos :: ik ++ [apos]

/-- `f"Partial match: '{keyword}' ~ '{indexed_keyword}'"` — the string the
code actually *appends* as a partial-match reason. -/
def partialReasonTilde (kw ik : Str) : Str :=
  ['P', 'a', 'r', 't', 'i', 'a', 'l', ' ', 'm', 'a', 't', 'c', 'h', ':', ' ']
    ++ apos :: kw ++ apos :: [' ', '~', ' '] ++ apos :: ik ++ [apos]

/-- `f"Contains column: {column.name}"`. -/
def columnReason (name : Str) : Str :=
  ['C', 'o', 'n', 't', 'a', 'i', 'n', 's', ' ', 'c', 'o', 'l', 'u', 'm', 'n', ':', ' '] ++ name

/-- `"All tables"`. -/
def allTablesReason : Str :=
  ['A', 'l', 'l', ' ', 't', 'a', 'b', 'l', 'e', 's']

/-- The two mutable locals of `SearchEngine.search`:
`file_scores` and `file_matches`, both insertion-ordered dicts. -/
structure ScoreState where
  file_scores : List (Str × ℚ)
  file_matches : List (Str × List Str)
deriving DecidableEq, Repr

/-- `file_scores[sf] = file_scores.get(sf, 0) + d`. -/
def bumpScore : List (Str × ℚ) → Str → ℚ → List (Str × ℚ)
  | [], sf, d => [(sf, d)]
  | (k, v) :: rest, sf, d =>
    if k = sf then (k, v + d) :: rest else (k, v) :: bumpScore rest sf d

/-- `file_matches.get(sf, [])` (reads; `addReason` creates the entry). -/
def getReasons (fm : List (Str × List Str)) (sf : Str) : List Str :=
  match fm.find? (fun p => decide (p.1 = sf)) with
  | some p => p.2
  | none => []

/-- Create the `file_matches[sf]` entry if needed and append `r` to it. -/
def addReason : List (Str × List Str) → Str → Str → List (Str × List Str)
  | [], sf, r => [(sf, [r])]
  | (k, rs) :: rest, sf, r =>
    if k = sf then (k, rs ++ [r]) :: rest else (k, rs) :: addReason rest sf r

/-- The partial-match reason update: the code checks membership of the
`' in '`-formatted string but appends the `' ~ '`-formatted one. -/
def partialAddReason (fm : List (Str × List Str)) (sf kw ik : Str) :
    List (Str × List Str) :=
  if partialReasonIn kw ik ∈ getReasons fm sf then fm
  else addReason fm sf (partialReasonTilde kw ik)

/-- One loop iteration over a matched entry's source files: add `d` to the
file's score and update its reason list with `g`. -/
def scoreUpd (d : ℚ) (g : ScoreState → Str → List (Str × List Str))
    (s : ScoreState) (sf : Str) : ScoreState :=
  ⟨bumpScore s.file_scores sf d, g s sf⟩

/-- The exact-match block of `SearchEngine.search` for one query token:
`+1.0` and a `Matched keyword` reason for every file listed under the token. -/
def exactStep (idx : Index) (st : ScoreState) (kw : Str) : ScoreState :=
  match indexLookup idx kw with
  | none => st
  | some files =>
    files.foldl (scoreUpd 1 (fun s sf => addReason s.file_matches sf (exactReason kw))) st

/-- The partial-match block of `SearchEngine.search` for one query token:
a scan over the whole index vocabulary; `+0.5` per file of every indexed
token in a substring-containment relation with the query token. -/
def partialStep (idx : Index) (st : ScoreState) (kw : Str) : ScoreState :=
  idx.foldl
    (fun s e =>
      if isSub kw e.1 || isSub e.1 kw then
        e.2.foldl (scoreUpd (1 / 2) (fun s2 sf => partialAddReason s2.file_matches sf kw e.1)) s
      else s) st

/-- The scoring loop of `SearchEngine.search` over all query tokens. -/
def scoreQuery (idx : Index) (query : Str) : ScoreState :=
  (keptTokens query).foldl (fun st kw => partialStep idx (exactStep idx st kw) kw) ⟨[], []⟩

/-- The source-type filter inside `SearchEngine.search` (note the Python
truthiness test: `None` and the empty string both disable filtering). -/
def keepResult : Option Str → Option TableMetadata → Option TableDescription → Bool
  | none, _, _ => true
  | some [], _, _ => true
  | some st, some m, _ => decide (m.source_type = st)
  | some st, none, some d => decide (d.source_type = st)
  | some _, none, none => true

/-- The result-building loop of `SearchEngine.search`. -/
def assemble (yaml : List TableMetadata) (txt : List TableDescription)
    (source_type : Option Str) (st : ScoreState) : List SearchResult :=
  st.file_scores.filterMap
    (fun p =>
      let ym := yamlByFile yaml p.1
      let td := txtByFile txt (replaceYamlTxt p.1)
      if keepResult source_type ym td then
        some ⟨ym, td, p.2, getReasons st.file_matches p.1⟩
      else none)

/-- The sort key ordering of `results.sort(key=lambda r: r.relevance_score,
reverse=True)`: descending relevance score. -/
def scoreGe (a b : SearchResult) : Prop := b.relevance_score ≤ a.relevance_score

instance : DecidableRel scoreGe :=
  fun a b => inferInstanceAs (Decidable (b.relevance_score ≤ a.relevance_score))

instance : IsTotal SearchResult scoreGe :=
  ⟨fun a b => Or.symm (le_total a.relevance_score b.relevance_score)⟩

instance : IsTrans SearchResult scoreGe :=
  ⟨fun _ _ _ hab hbc => le_trans hbc hab⟩

/-- `SearchEngine.search` before the final `[:max_results]` slice.
Python's `list.sort` is stable; insertion sort is a stable sort, so it is
extensionally the same function of the input list and the key. -/
def searchRanked (yaml : List TableMetadata) (txt : List TableDescription)
    (query : Str) (source_type : Option Str) : List SearchResult :=
  List.insertionSort scoreGe (assemble yaml txt source_type (scoreQuery (buildIndex yaml txt) query))

/-- Python `l[:k]` for an `int` `k` (a negative `k` drops the last `|k|` elements). -/
def pySlice {α : Type} (l : List α) (k : Int) : List α :=
  if 0 ≤ k then l.take k.toNat else l.take (l.length - (-k).toNat)

/-- `SearchEngine.search`. -/
def search (yaml : List TableMetadata) (txt : List TableDescription)
    (query : Str) (source_type : Option Str) (max_results : Int) : List SearchResult :=
  pySlice (searchRanked yaml txt query source_type) max_results

/-- The source-type filter of `search_by_column` and `get_all_tables`
(again with Python truthiness). -/
def keepMeta : Option Str → TableMetadata → Bool
  | none, _ => true
  | some [], _ => true
  | some st, m => decide (m.source_type = st)

/-- `column_name.lower() in column.name.lower() or
column_name.lower() in column.title.lower()`. -/
def matchesColumn (column_name : Str) (c : ColumnMetadata) : Bool :=
  isSub (column_name.map Char.toLower) (c.name.map Char.toLower)
    || isSub (column_name.map Char.toLower) (c.title.map Char.toLower)

/-- `SearchEngine.search_by_column`: first matching column wins, one
result per table (the loop breaks after the first match). -/
def search_by_column (column_name : Str) (yaml : List TableMetadata)
    (txt : List TableDescription) (source_type : Option Str) : List SearchResult :=
  yaml.filterMap
    (fun m =>
      if keepMeta source_type m then
        match m.columns.find? (matchesColumn column_name) with
        | some c =>
          some ⟨some m, txtByFile txt (replaceYamlTxt m.source_file), 1, [columnReason c.name]⟩
        | none => none
      else none)

/-- `SearchEngine.get_all_tables`. -/
def get_all_tables (yaml : List TableMetadata) (txt : List TableDescription)
    (source_type : Option Str) : List SearchResult :=
  yaml.filterMap
    (fun m =>
      if keepMeta source_type m then
        some ⟨some m, txtByFile txt (replaceYamlTxt m.source_file), 0, [allTablesReason]⟩
      else none)

/-! ### Generic fold invariant -/

theorem foldl_preserves {α β : Type} (P : α → Prop) (step : α → β → α)
    (h : ∀ a b, P a → P (step a b)) : ∀ (l : List β) (a : α), P a → P (l.foldl step a)
  | [], _, ha => ha
  | b :: l, a, ha => foldl_preserves P step h l (step a b) (h a b ha)

/-! ### String lemmas -/

theorem isPre_refl : ∀ s : Str, isPre s s = true
  | [] => rfl
  | c :: rest => by simp [isPre, isPre_refl rest]

theorem isSub_self (s : Str) : isSub s s = true := by
  cases s with
  | nil => rfl
  | cons c rest => simp [isSub, isPre_refl]

theorem isPre_nil_left (s : Str) : isPre [] s = true := by cases s <;> rfl

theorem isSub_nil_left : ∀ s : Str, isSub [] s = true
  | [] => rfl
  | _ :: rest => by simp [isSub, isPre_nil_left, isSub_nil_left rest]

/-- If `".yaml"` does not occur in `s`, `s.replace('.yaml', '.txt')` is `s`. -/
theorem replaceYamlTxt_eq_self : ∀ s : Str, isSub yamlExt s = false → replaceYamlTxt s = s
  | [] => fun _ => by rw [replaceYamlTxt]
  | c :: rest => fun h => by
    have h' : isPre yamlExt (c :: rest) = false ∧ isSub yamlExt rest = false := by
      simpa [isSub] using h
    rw [replaceYamlTxt, if_neg (by simp [h'.1]), replaceYamlTxt_eq_self rest h'.2]

/-! ### Record lookup lemmas -/

theorem yamlByFile_eq_some {yaml : List TableMetadata} {sf : Str} {m : TableMetadata}
    (h : yamlByFile yaml sf = some m) : m ∈ yaml ∧ m.source_file = sf := by
  refine ⟨?_, ?_⟩
  · have := List.mem_of_find?_eq_some h
    exact List.mem_reverse.mp this
  · have := List.find?_some h
    simpa using this

theorem yamlByFile_isSome {yaml : List TableMetadata} {sf : Str} {m : TableMetadata}
    (hm : m ∈ yaml) (hsf : m.source_file = sf) : (yamlByFile yaml sf).isSome = true := by
  rw [yamlByFile, List.find?_isSome]
  exact ⟨m, List.mem_reverse.mpr hm, by simp [hsf]⟩

theorem txtByFile_eq_some {txt : List TableDescription} {sf : Str} {d : TableDescription}
    (h : txtByFile txt sf = some d) : d ∈ txt ∧ d.source_file = sf := by
  refine ⟨?_, ?_⟩
  · have := List.mem_of_find?_eq_some h
    exact List.mem_reverse.mp this
  · have := List.find?_some h
    simpa using this

theorem txtByFile_isSome {txt : List TableDescription} {sf : Str} {d : TableDescription}
    (hd : d ∈ txt) (hsf : d.source_file = sf) : (txtByFile txt sf).isSome = true := by
  rw [txtByFile, List.find?_isSome]
  exact ⟨d, List.mem_reverse.mpr hd, by simp [hsf]⟩

theorem foldl_preserves_mem {α β : Type} (P : α → Prop) (step : α → β → α) :
    ∀ (l : List β), (∀ a b, b ∈ l → P a → P (step a b)) → ∀ a, P a → P (l.foldl step a)
  | [], _, _, ha => ha
  | b :: l, h, a, ha =>
    foldl_preserves_mem P step l (fun a' b' hb' => h a' b' (List.mem_cons_of_mem _ hb'))
      (step a b) (h a b (List.mem_cons_self _ _) ha)

/-! ### Which source files appear in the index -/

/-- All source files stored anywhere in the index. -/
def indexFiles (idx : Index) : List Str := (idx.map Prod.snd).flatten

theorem mem_indexFiles {idx : Index} {x : Str} :
    x ∈ indexFiles idx ↔ ∃ e ∈ idx, x ∈ e.2 := by
  simp only [indexFiles, List.mem_flatten, List.mem_map]
  constructor
  · rintro ⟨l, ⟨e, he, rfl⟩, hx⟩
    exact ⟨e, he, hx⟩
  · rintro ⟨e, he, hx⟩
    exact ⟨e.2, ⟨e, he, rfl⟩, hx⟩

theorem mem_addToSet {l : List Str} {sf x : Str} (h : x ∈ addToSet l sf) :
    x = sf ∨ x ∈ l := by
  unfold addToSet at h
  split at h
  · exact Or.inr h
  · rcases List.mem_append.mp h with h' | h'
    · exact Or.inr h'
    · exact Or.inl (List.mem_singleton.mp h')

theorem mem_indexFiles_indexInsert :
    ∀ {idx : Index} {kw sf x : Str}, x ∈ indexFiles (indexInsert idx kw sf) →
      x = sf ∨ x ∈ indexFiles idx := by
  intro idx
  induction idx with
  | nil =>
    intro kw sf x h
    simp [indexInsert, indexFiles] at h
    exact Or.inl h
  | cons e rest ih =>
    intro kw sf x h
    obtain ⟨k, fs⟩ := e
    rw [indexInsert] at h
    split at h
    · rcases mem_indexFiles.mp h with ⟨e', he', hx⟩
      rcases List.mem_cons.mp he' with rfl | he'
      · rcases mem_addToSet hx with h' | h'
        · exact Or.inl h'
        · exact Or.inr (mem_indexFiles.mpr ⟨(k, fs), List.mem_cons_self _ _, h'⟩)
      · exact Or.inr (mem_indexFiles.mpr ⟨e', List.mem_cons_of_mem _ he', hx⟩)
    · rcases mem_indexFiles.mp h with ⟨e', he', hx⟩
      rcases List.mem_cons.mp he' with rfl | he'
      · exact Or.inr (mem_indexFiles.mpr ⟨(k, fs), List.mem_cons_self _ _, hx⟩)
      · rcases ih (mem_indexFiles.mpr ⟨e', he', hx⟩) with h' | h'
        · exact Or.inl h'
        · rcases mem_indexFiles.mp h' with ⟨ea, hea, hxa⟩
          exact Or.inr (mem_indexFiles.mpr ⟨ea, List.mem_cons_of_mem _ hea, hxa⟩)

theorem mem_indexFiles_indexText {idx : Index} {text sf x : Str}
    (h : x ∈ indexFiles (indexText idx text sf)) : x = sf ∨ x ∈ indexFiles idx := by
  have := foldl_preserves (fun i => ∀ y ∈ indexFiles i, y = sf ∨ y ∈ indexFiles idx)
    (fun i kw => indexInsert i kw sf)
    (fun i kw hi y hy => (mem_indexFiles_indexInsert hy).elim Or.inl (hi y))
    (keptTokens text) idx (fun y hy => Or.inr hy)
  exact this x h

theorem mem_indexFiles_indexYaml {idx : Index} {m : TableMetadata} {x : Str}
    (h : x ∈ indexFiles (indexYaml idx m)) : x = m.source_file ∨ x ∈ indexFiles idx := by
  have pText : ∀ (i : Index) (t : Str),
      (∀ y ∈ indexFiles i, y = m.source_file ∨ y ∈ indexFiles idx) →
      ∀ y ∈ indexFiles (indexText i t m.source_file), y = m.source_file ∨ y ∈ indexFiles idx :=
    fun i t hi y hy => (mem_indexFiles_indexText hy).elim Or.inl (hi y)
  have p3 : ∀ y ∈ indexFiles (indexText (indexText (indexText idx m.table_title m.source_file)
      m.table_description m.source_file) m.table_loc m.source_file),
      y = m.source_file ∨ y ∈ indexFiles idx :=
    pText _ _ (pText _ _ (pText _ _ (fun y hy => Or.inr hy)))
  have p4 := foldl_preserves
    (fun i => ∀ y ∈ indexFiles i, y = m.source_file ∨ y ∈ indexFiles idx)
    (fun i kw => indexText i kw m.source_file) (fun i kw hi => pText i kw hi)
    m.keywords _ p3
  have p5 := foldl_preserves
    (fun i => ∀ y ∈ indexFiles i, y = m.source_file ∨ y ∈ indexFiles idx)
    (fun i c => indexText (indexText (indexText i c.name m.source_file) c.title m.source_file)
      c.description m.source_file)
    (fun i c hi => pText _ _ (pText _ _ (pText _ _ hi)))
    m.columns _ p4
  exact p5 x (by simpa [indexYaml] using h)

theorem mem_indexFiles_indexTxt {idx : Index} {d : TableDescription} {x : Str}
    (h : x ∈ indexFiles (indexTxt idx d)) : x = d.source_file ∨ x ∈ indexFiles idx := by
  have pText : ∀ (i : Index) (t : Str),
      (∀ y ∈ indexFiles i, y = d.source_file ∨ y ∈ indexFiles idx) →
      ∀ y ∈ indexFiles (indexText i t d.source_file), y = d.source_file ∨ y ∈ indexFiles idx :=
    fun i t hi y hy => (mem_indexFiles_indexText hy).elim Or.inl (hi y)
  have p2 : ∀ y ∈ indexFiles (indexText (indexText idx d.table_name d.source_file)
      d.purpose d.source_file), y = d.source_file ∨ y ∈ indexFiles idx :=
    pText _ _ (pText _ _ (fun y hy => Or.inr hy))
  have p3 := foldl_preserves
    (fun i => ∀ y ∈ indexFiles i, y = d.source_file ∨ y ∈ indexFiles idx)
    (fun i f => indexText i f d.source_file) (fun i f hi => pText i f hi)
    (d.key_features ++ d.joinable_features) _ p2
  exact p3 x (by simpa [indexTxt] using h)

/-- Every source file in the built index is the `source_file` of one of the
ingested records. -/
theorem mem_indexFiles_buildIndex {yaml : List TableMetadata} {txt : List TableDescription}
    {x : Str} (h : x ∈ indexFiles (buildIndex yaml txt)) :
    (∃ m ∈ yaml, m.source_file = x) ∨ (∃ d ∈ txt, d.source_file = x) := by
  have hyaml : ∀ y ∈ indexFiles (yaml.foldl indexYaml []), ∃ m ∈ yaml, m.source_file = y := by
    have := foldl_preserves_mem
      (fun i => ∀ y ∈ indexFiles i, ∃ m ∈ yaml, m.source_file = y) indexYaml yaml
      (fun i m hm hi y hy =>
        (mem_indexFiles_indexYaml hy).elim (fun he => ⟨m, hm, he.symm⟩) (hi y))
      [] (by simp [indexFiles])
    exact this
  have htxt := foldl_preserves_mem
    (fun i => ∀ y ∈ indexFiles i,
      (∃ m ∈ yaml, m.source_file = y) ∨ (∃ d ∈ txt, d.source_file = y)) indexTxt txt
    (fun i d hd hi y hy =>
      (mem_indexFiles_indexTxt hy).elim (fun he => Or.inr ⟨d, hd, he.symm⟩) (hi y))
    (yaml.foldl indexYaml []) (fun y hy => Or.inl (hyaml y hy))
  exact htxt x h

/-! ### Scoring-state invariants -/

/-- The keys of `file_scores`. -/
def scoreKeys (st : ScoreState) : List Str := st.file_scores.map Prod.fst

theorem indexLookup_mem : ∀ {idx : Index} {kw : Str} {fs : List Str},
    indexLookup idx kw = some fs → (kw, fs) ∈ idx := by
  intro idx
  induction idx with
  | nil => intro kw fs h; cases h
  | cons e rest ih =>
    intro kw fs h
    obtain ⟨k, fs0⟩ := e
    rw [indexLookup] at h
    split at h
    · obtain rfl := Option.some_injective _ h
      subst k
      exact List.mem_cons_self _ _
    · exact List.mem_cons_of_mem _ (ih h)

theorem mem_keys_bumpScore : ∀ {fs : List (Str × ℚ)} {sf : Str} {d : ℚ} {x : Str},
    x ∈ (bumpScore fs sf d).map Prod.fst → x = sf ∨ x ∈ fs.map Prod.fst := by
  intro fs
  induction fs with
  | nil =>
    intro sf d x h
    rw [bumpScore] at h
    exact Or.inl (by simpa using h)
  | cons p rest ih =>
    intro sf d x h
    obtain ⟨k, v⟩ := p
    rw [bumpScore] at h
    split at h <;> simp only [List.map_cons, List.mem_cons] at h ⊢
    · tauto
    · rcases h with h1 | h1
      · tauto
      · rcases ih h1 with h2 | h2 <;> tauto

theorem mem_vals_bumpScore {fs : List (Str × ℚ)} {sf : Str} {d : ℚ}
    (hd : 0 < d) (h : ∀ p ∈ fs, 0 < p.2) : ∀ p ∈ bumpScore fs sf d, 0 < p.2 := by
  induction fs with
  | nil =>
    intro p hp
    rw [bumpScore] at hp
    obtain rfl := List.mem_singleton.mp hp
    exact hd
  | cons q rest ih =>
    intro p hp
    obtain ⟨k, v⟩ := q
    rw [bumpScore] at hp
    split at hp
    · rcases List.mem_cons.mp hp with rfl | hp'
      · have hv : 0 < v := h (k, v) (List.mem_cons_self _ _)
        simpa using add_pos hv hd
      · exact h p (List.mem_cons_of_mem _ hp')
    · rcases List.mem_cons.mp hp with rfl | hp'
      · exact h (k, v) (List.mem_cons_self _ _)
      · exact ih (fun q hq => h q (List.mem_cons_of_mem _ hq)) p hp'

theorem keys_filesFold {d : ℚ} {g : ScoreState → Str → List (Str × List Str)}
    {F : List Str} (files : List Str) (hf : ∀ sf ∈ files, sf ∈ F)
    (st : ScoreState) (hst : ∀ y ∈ scoreKeys st, y ∈ F) :
    ∀ y ∈ scoreKeys (files.foldl (scoreUpd d g) st), y ∈ F := by
  have := foldl_preserves_mem (fun s => ∀ y ∈ scoreKeys s, y ∈ F) (scoreUpd d g) files
    (fun s sf hsf hs y hy => by
      rcases mem_keys_bumpScore (by simpa [scoreUpd, scoreKeys] using hy) with rfl | h'
      · exact hf y hsf
      · exact hs y h')
    st hst
  exact this

theorem vals_filesFold {d : ℚ} {g : ScoreState → Str → List (Str × List Str)}
    (hd : 0 < d) (files : List Str)
    (st : ScoreState) (hst : ∀ p ∈ st.file_scores, 0 < p.2) :
    ∀ p ∈ (files.foldl (scoreUpd d g) st).file_scores, 0 < p.2 := by
  have := foldl_preserves (fun s => ∀ p ∈ s.file_scores, 0 < p.2) (scoreUpd d g)
    (fun s sf hs => by
      intro p hp
      exact mem_vals_bumpScore hd hs p (by simpa [scoreUpd] using hp))
    files st hst
  exact this

theorem exactStep_inv {idx : Index} {kw : Str} {st : ScoreState}
    (hkeys : ∀ y ∈ scoreKeys st, y ∈ indexFiles idx)
    (hvals : ∀ p ∈ st.file_scores, 0 < p.2) :
    (∀ y ∈ scoreKeys (exactStep idx st kw), y ∈ indexFiles idx) ∧
      (∀ p ∈ (exactStep idx st kw).file_scores, 0 < p.2) := by
  rw [exactStep]
  split
  · exact ⟨hkeys, hvals⟩
  · rename_i files hlook
    have hmem : ∀ sf ∈ files, sf ∈ indexFiles idx := fun sf hsf =>
      mem_indexFiles.mpr ⟨(kw, files), indexLookup_mem hlook, hsf⟩
    exact ⟨keys_filesFold files hmem st hkeys, vals_filesFold one_pos files st hvals⟩

theorem partialStep_inv {idx : Index} {kw : Str} {st : ScoreState}
    (hkeys : ∀ y ∈ scoreKeys st, y ∈ indexFiles idx)
    (hvals : ∀ p ∈ st.file_scores, 0 < p.2) :
    (∀ y ∈ scoreKeys (partialStep idx st kw), y ∈ indexFiles idx) ∧
      (∀ p ∈ (partialStep idx st kw).file_scores, 0 < p.2) := by
  rw [partialStep]
  have := foldl_preserves_mem
    (fun s => (∀ y ∈ scoreKeys s, y ∈ indexFiles idx) ∧ ∀ p ∈ s.file_scores, 0 < p.2)
    (fun s e =>
      if isSub kw e.1 || isSub e.1 kw then
        e.2.foldl (scoreUpd (1 / 2) (fun s2 sf => partialAddReason s2.file_matches sf kw e.1)) s
      else s)
    idx
    (fun s e he hs => by
      dsimp only
      split
      · have hmem : ∀ sf ∈ e.2, sf ∈ indexFiles idx := fun sf hsf =>
          mem_indexFiles.mpr ⟨e, he, hsf⟩
        exact ⟨keys_filesFold e.2 hmem s hs.1, vals_filesFold (by norm_num) e.2 s hs.2⟩
      · exact hs)
    st ⟨hkeys, hvals⟩
  exact this

theorem scoreQuery_inv (idx : Index) (query : Str) :
    (∀ y ∈ scoreKeys (scoreQuery idx query), y ∈ indexFiles idx) ∧
      (∀ p ∈ (scoreQuery idx query).file_scores, 0 < p.2) := by
  rw [scoreQuery]
  have := foldl_preserves
    (fun s => (∀ y ∈ scoreKeys s, y ∈ indexFiles idx) ∧ ∀ p ∈ s.file_scores, 0 < p.2)
    (fun s kw => partialStep idx (exactStep idx s kw) kw)
    (fun s kw hs => by
      dsimp only at hs ⊢
      have h1 := @exactStep_inv idx kw s hs.1 hs.2
      exact @partialStep_inv idx kw _ h1.1 h1.2)
    (keptTokens query) ⟨[], []⟩ (by simp [scoreKeys])
  exact this

/-! ### From a returned result back to the scoring state -/

theorem mem_assemble {yaml : List TableMetadata} {txt : List TableDescription}
    {f : Option Str} {st : ScoreState} {r : SearchResult}
    (h : r ∈ assemble yaml txt f st) :
    ∃ p ∈ st.file_scores,
      keepResult f (yamlByFile yaml p.1) (txtByFile txt (replaceYamlTxt p.1)) = true ∧
      r = ⟨yamlByFile yaml p.1, txtByFile txt (replaceYamlTxt p.1), p.2,
        getReasons st.file_matches p.1⟩ := by
  obtain ⟨p, hp, he⟩ := List.mem_filterMap.mp h
  refine ⟨p, hp, ?_⟩
  dsimp only at he
  split at he
  · rename_i hkeep
    exact ⟨hkeep, (Option.some_injective _ he).symm⟩
  · cases he

theorem mem_search {yaml : List TableMetadata} {txt : List TableDescription}
    {q : Str} {f : Option Str} {k : Int} {r : SearchResult}
    (h : r ∈ search yaml txt q f k) :
    r ∈ assemble yaml txt f (scoreQuery (buildIndex yaml txt) q) := by
  rw [search, pySlice] at h
  have hr : r ∈ searchRanked yaml txt q f := by
    split at h
    · exact (List.take_sublist _ _).mem h
    · exact (List.take_sublist _ _).mem h
  rw [searchRanked] at hr
  exact (List.perm_insertionSort scoreGe _).mem_iff.mp hr

/-! ### Concrete example records -/

/-- A table record carrying only a title, a source file and a source type. -/
def mkTitleOnly (title sf st : Str) : TableMetadata :=
  ⟨none, [], [], title, [], [], [], sf, st⟩

def avsStr : Str := ['a', 'v', 's']
def xyzStr : Str := ['x', 'y', 'z']
def abcStr : Str := ['a', 'b', 'c']
def fYaml : Str := ['f', '.', 'y', 'a', 'm', 'l']
def gYaml : Str := ['g', '.', 'y', 'a', 'm', 'l']
def bogusStr : Str := ['b', 'o', 'g', 'u', 's']
def qAbcAbc : Str := ['a', 'b', 'c', ' ', 'a', 'b', 'c']

def mXyz : TableMetadata := mkTitleOnly xyzStr fYaml avsStr
def mAbc1 : TableMetadata := mkTitleOnly abcStr fYaml avsStr
def mAbc2 : TableMetadata := mkTitleOnly abcStr gYaml avsStr

def ordersYaml : Str := ['o', 'r', 'd', 'e', 'r', 's', '.', 'y', 'a', 'm', 'l']
def ordersTxt : Str := ['o', 'r', 'd', 'e', 'r', 's', '.', 't', 'x', 't']
def alphaStr : Str := ['a', 'l', 'p', 'h', 'a']
def betaStr : Str := ['b', 'e', 't', 'a']
def mOrders : TableMetadata := mkTitleOnly alphaStr ordersYaml avsStr
def dOrders : TableDescription := ⟨betaStr, [], [], [], ordersTxt, avsStr⟩

/-! ### C8 -/

/-- C8: for every store, query, filter and `max_results`, the list returned
by `search` is ordered by relevance score in non-increasing order, and for
every `max_results > 0` its length is at most `max_results`. -/
theorem C8_sorted_and_capped (yaml : List TableMetadata) (txt : List TableDescription)
    (q : Str) (f : Option Str) (k : Int) :
    List.Pairwise (fun a b => b.relevance_score ≤ a.relevance_score) (search yaml txt q f k) ∧
      (0 < k → ((search yaml txt q f k).length : Int) ≤ k) := by
  constructor
  · have hs : List.Pairwise scoreGe (searchRanked yaml txt q f) :=
      List.sorted_insertionSort scoreGe _
    have hsub : (search yaml txt q f k).Sublist (searchRanked yaml txt q f) := by
      rw [search, pySlice]
      split
      · exact List.take_sublist _ _
      · exact List.take_sublist _ _
    exact List.Pairwise.sublist hsub hs
  · intro hk
    rw [search, pySlice, if_pos (le_of_lt hk)]
    calc ((List.take k.toNat (searchRanked yaml txt q f)).length : Int)
        ≤ (k.toNat : Int) := by exact_mod_cast List.length_take_le _ _
      _ = k := Int.toNat_of_nonneg (le_of_lt hk)

/-- C8 witness at a concrete store, query `"xyz"`, `max_results = 1`. -/
theorem C8_witness :
    (0 : Int) < 1 ∧ ((search [mXyz] [] xyzStr none 1).length : Int) ≤ 1 :=
  ⟨by norm_num, (C8_sorted_and_capped [mXyz] [] xyzStr none 1).2 (by norm_num)⟩

/-! ### C9 -/

/-- C9: `get_all_tables` returns one result per table record passing the
filter, in insertion order, each with score `0.0` and the single reason
`"All tables"`; and every result of `search` has a strictly positive
relevance score (an identifier with no contribution never appears). -/
theorem C9_all_tables_and_positive_scores (yaml : List TableMetadata)
    (txt : List TableDescription) (f : Option Str) (q : Str) (k : Int) :
    ((get_all_tables yaml txt f).map (fun r => r.table_metadata)
        = (yaml.filter (keepMeta f)).map some
      ∧ ∀ r ∈ get_all_tables yaml txt f,
          r.relevance_score = 0 ∧ r.match_reasons = [allTablesReason])
    ∧ ∀ r ∈ search yaml txt q f k, 0 < r.relevance_score := by
  refine ⟨⟨?_, ?_⟩, ?_⟩
  · induction yaml with
    | nil => simp [get_all_tables]
    | cons m rest ih =>
      rw [get_all_tables, List.filterMap_cons]
      by_cases hk : keepMeta f m = true
      · simp only [hk, if_true, List.map_cons, List.filter_cons, if_pos hk]
        exact congrArg _ ih
      · simp only [hk, if_false, List.filter_cons, hk]
        simpa using ih
  · intro r hr
    obtain ⟨m, _, he⟩ := List.mem_filterMap.mp hr
    split at he
    · obtain rfl := Option.some_injective _ he
      exact ⟨rfl, rfl⟩
    · cases he
  · intro r hr
    obtain ⟨p, hp, _, rfl⟩ := mem_assemble (mem_search hr)
    exact (scoreQuery_inv (buildIndex yaml txt) q).2 p hp

/-- C9 witness: the single result of a concrete search has positive score. -/
theorem C9_witness :
    0 < (⟨some mXyz, none, 3 / 2,
        [exactReason xyzStr, partialReasonTilde xyzStr xyzStr]⟩ : SearchResult).relevance_score := by
  refine (C9_all_tables_and_positive_scores [mXyz] [] none xyzStr 10).2
    ⟨some mXyz, none, 3 / 2, [exactReason xyzStr, partialReasonTilde xyzStr xyzStr]⟩ ?_
  simp +decide [search, pySlice, searchRanked, assemble, scoreQuery, keptTokens, tokens,
    tokenizeAux, buildIndex, indexYaml, indexTxt, indexText, indexInsert, indexLookup,
    exactStep, partialStep, scoreUpd, bumpScore, addReason, partialAddReason, getReasons,
    keepResult, yamlByFile, txtByFile, replaceYamlTxt, addToSet, isSub, isPre, isWordChar,
    mXyz, mkTitleOnly, xyzStr, fYaml, avsStr, exactReason,
    partialReasonTilde, partialReasonIn, apos, scoreGe]
  norm_num

/-! ### C10 -/

theorem matchesColumn_nil (c : ColumnMetadata) : matchesColumn [] c = true := by
  simp [matchesColumn, isSub_nil_left]

/-- C10: `search_by_column` with the empty substring returns exactly one
result (in insertion order) for every table record that passes the
source-type filter and has at least one column: the empty string is
contained in every column name. -/
theorem C10_empty_column_query (yaml : List TableMetadata) (txt : List TableDescription)
    (f : Option Str) :
    (search_by_column [] yaml txt f).map (fun r => r.table_metadata)
      = (yaml.filter (fun m => keepMeta f m && !m.columns.isEmpty)).map some := by
  induction yaml with
  | nil => simp [search_by_column]
  | cons m rest ih =>
    rw [search_by_column, List.filterMap_cons]
    by_cases hk : keepMeta f m = true
    · cases hc : m.columns with
      | nil =>
        simp only [hk, if_true, hc, List.find?_nil, List.filter_cons, hk, hc,
          List.isEmpty_nil, Bool.not_true, Bool.and_false, if_false]
        simpa [search_by_column] using ih
      | cons c cs =>
        simp only [hk, if_true, hc, List.find?_cons, matchesColumn_nil,
          List.filter_cons, List.isEmpty_cons, Bool.not_false, Bool.and_true,
          List.map_cons]
        exact congrArg _ (by simpa [search_by_column] using ih)
    · simp only [hk, if_false, List.filter_cons]
      simp only [Bool.false_and, if_false, eq_self_iff_true]
      simpa [search_by_column, hk] using ih

/-! ### C2 -/

/-- C2 counterexample: with two matching records and `max_results = -1`,
`search` returns a non-empty list (Python slicing `[: -1]` drops only the
last element), contradicting the claim that every `max_results ≤ 0`
yields the empty list. -/
theorem C2_counterexample : search [mAbc1, mAbc2] [] abcStr none (-1) ≠ [] := by
  simp +decide [search, pySlice, searchRanked, assemble, scoreQuery, keptTokens, tokens,
    tokenizeAux, buildIndex, indexYaml, indexTxt, indexText, indexInsert, indexLookup,
    exactStep, partialStep, scoreUpd, bumpScore, addReason, partialAddReason, getReasons,
    keepResult, yamlByFile, txtByFile, replaceYamlTxt, addToSet, isSub, isPre, isWordChar,
    mAbc1, mAbc2, mkTitleOnly, abcStr, fYaml, gYaml, avsStr, exactReason,
    partialReasonTilde, partialReasonIn, apos, scoreGe]

/-- C2 amended: `max_results = 0` yields the empty list, but a negative
`max_results` instead drops the last `|max_results|` ranked results
(Python slice semantics), so it is empty only when `|max_results|` is at
least the number of results. -/
theorem C2_amended (yaml : List TableMetadata) (txt : List TableDescription)
    (q : Str) (f : Option Str) :
    search yaml txt q f 0 = [] ∧
      ∀ k : Int, k < 0 → search yaml txt q f k
        = (searchRanked yaml txt q f).take ((searchRanked yaml txt q f).length - (-k).toNat) := by
  constructor
  · rw [search, pySlice]
    simp
  · intro k hk
    rw [search, pySlice, if_neg (by omega)]

/-- C2 witness at the two-record store with `max_results = -1`. -/
theorem C2_witness :
    (-1 : Int) < 0 ∧
      search [mAbc1, mAbc2] [] abcStr none (-1)
        = (searchRanked [mAbc1, mAbc2] [] abcStr none).take
            ((searchRanked [mAbc1, mAbc2] [] abcStr none).length - (-(-1 : Int)).toNat) :=
  ⟨by norm_num, (C2_amended [mAbc1, mAbc2] [] abcStr none).2 (-1) (by norm_num)⟩

/-! ### C3 -/

/-- A source file mentioned in the index resolves to at least one record,
provided no TXT record's source file contains `".yaml"` (true of loader
output, where TXT files are named `*.txt`). -/
theorem resolves_of_mem_indexFiles {yaml : List TableMetadata} {txt : List TableDescription}
    {sf : Str} (hwf : ∀ d ∈ txt, isSub yamlExt d.source_file = false)
    (hsf : sf ∈ indexFiles (buildIndex yaml txt))
    (hy : yamlByFile yaml sf = none)
    (ht : txtByFile txt (replaceYamlTxt sf) = none) : False := by
  rcases mem_indexFiles_buildIndex hsf with ⟨m, hm, hms⟩ | ⟨d, hd, hds⟩
  · have hsome := yamlByFile_isSome hm hms
    rw [hy] at hsome
    cases hsome
  · have hr : replaceYamlTxt sf = sf := by
      rw [← hds]
      exact replaceYamlTxt_eq_self _ (hwf d hd)
    have hsome := txtByFile_isSome hd hds
    rw [← hr, ht] at hsome
    cases hsome

/-- C3 counterexample: with the filter value `"bogus"` (outside the closed
enumeration) the code does not fail; `search` runs normally and returns an
ordinary (here empty) result list. The code has no error path at all: the
filter comparison simply rejects every record. -/
theorem C3_counterexample : search [mAbc1] [] abcStr (some bogusStr) 10 = [] := by
  simp +decide [search, pySlice, searchRanked, assemble, scoreQuery, keptTokens, tokens,
    tokenizeAux, buildIndex, indexYaml, indexTxt, indexText, indexInsert, indexLookup,
    exactStep, partialStep, scoreUpd, bumpScore, addReason, partialAddReason, getReasons,
    keepResult, yamlByFile, txtByFile, replaceYamlTxt, addToSet, isSub, isPre, isWordChar,
    mAbc1, mkTitleOnly, abcStr, fYaml, avsStr, bogusStr, exactReason,
    partialReasonTilde, partialReasonIn, apos, scoreGe]

/-- C3 amended: a non-empty `sourceType` filter value carried by no record
(in particular any value outside `{avs, dlvs}` in a well-formed store) is
not an error: `search` returns the empty list. -/
theorem C3_amended (yaml : List TableMetadata) (txt : List TableDescription)
    (q : Str) (k : Int) (s : Str) (hne : s ≠ [])
    (hy : ∀ m ∈ yaml, m.source_type ≠ s) (ht : ∀ d ∈ txt, d.source_type ≠ s)
    (hwf : ∀ d ∈ txt, isSub yamlExt d.source_file = false) :
    search yaml txt q (some s) k = [] := by
  obtain ⟨c, s2, rfl⟩ := List.exists_cons_of_ne_nil hne
  have hasm : assemble yaml txt (some (c :: s2)) (scoreQuery (buildIndex yaml txt) q) = [] := by
    rw [assemble, List.filterMap_eq_nil_iff]
    intro p hp
    have hkey : p.1 ∈ indexFiles (buildIndex yaml txt) :=
      (scoreQuery_inv (buildIndex yaml txt) q).1 p.1 (List.mem_map_of_mem Prod.fst hp)
    have hkeep : keepResult (some (c :: s2)) (yamlByFile yaml p.1)
        (txtByFile txt (replaceYamlTxt p.1)) = false := by
      cases hym : yamlByFile yaml p.1 with
      | some m =>
        have hmm := yamlByFile_eq_some hym
        simp [keepResult, hy m hmm.1]
      | none =>
        cases htd : txtByFile txt (replaceYamlTxt p.1) with
        | some d =>
          have hdd := txtByFile_eq_some htd
          simp [keepResult, ht d hdd.1]
        | none => exact (resolves_of_mem_indexFiles hwf hkey hym htd).elim
    simp [hkeep]
  rw [search, searchRanked, hasm]
  cases k <;> simp [pySlice, List.insertionSort]

/-- C3 witness for the amended statement at a concrete store. -/
theorem C3_witness :
    bogusStr ≠ [] ∧ search [mAbc1] [] abcStr (some bogusStr) 7 = [] :=
  ⟨by decide,
    C3_amended [mAbc1] [] abcStr 7 bogusStr (by decide) (by decide) (by decide) (by decide)⟩

/-! ### C5 -/

/-- C5: with a filter `f ∈ {avs, dlvs}` and a well-formed store (no TXT
source file contains `".yaml"`), every result of `search` has a resolvable
record whose source type equals the filter; and whichever of the two paired
records resolves governs the keep decision (the metadata record when it
resolves, otherwise the description record): its source type equals the
filter iff the identifier is kept. -/
theorem C5_filter_invariant (yaml : List TableMetadata) (txt : List TableDescription)
    (q : Str) (s : Str) (k : Int)
    (hs : s = avsStr ∨ s = ['d', 'l', 'v', 's'])
    (hwf : ∀ d ∈ txt, isSub yamlExt d.source_file = false) :
    (∀ r ∈ search yaml txt q (some s) k,
      (∃ m, r.table_metadata = some m ∧ m.source_type = s) ∨
      (r.table_metadata = none ∧ ∃ d, r.table_description = some d ∧ d.source_type = s))
    ∧ (∀ (m : TableMetadata) (td : Option TableDescription),
        keepResult (some s) (some m) td = true ↔ m.source_type = s)
    ∧ (∀ d : TableDescription, keepResult (some s) none (some d) = true ↔ d.source_type = s) := by
  have hne : s ≠ [] := by rcases hs with rfl | rfl <;> decide
  obtain ⟨c, s2, rfl⟩ := List.exists_cons_of_ne_nil hne
  refine ⟨?_, ?_, ?_⟩
  · intro r hr
    obtain ⟨p, hp, hkeep, rfl⟩ := mem_assemble (mem_search hr)
    have hkey : p.1 ∈ indexFiles (buildIndex yaml txt) :=
      (scoreQuery_inv (buildIndex yaml txt) q).1 p.1 (List.mem_map_of_mem Prod.fst hp)
    cases hym : yamlByFile yaml p.1 with
    | some m =>
      left
      refine ⟨m, by simp [hym], ?_⟩
      rw [hym] at hkeep
      simpa [keepResult] using hkeep
    | none =>
      cases htd : txtByFile txt (replaceYamlTxt p.1) with
      | some d =>
        right
        refine ⟨by simp [hym], d, by simp [htd], ?_⟩
        rw [hym, htd] at hkeep
        simpa [keepResult] using hkeep
      | none => exact (resolves_of_mem_indexFiles hwf hkey hym htd).elim
  · intro m td
    simp [keepResult]
  · intro d
    simp [keepResult]

/-- C5 witness: concrete store, filter `"avs"`; the single result carries
the metadata record with source type `"avs"`. -/
theorem C5_witness :
    (∃ m, (⟨some mAbc1, none, 3 / 2,
        [exactReason abcStr, partialReasonTilde abcStr abcStr]⟩ : SearchResult).table_metadata
          = some m ∧ m.source_type = avsStr) ∨
    ((⟨some mAbc1, none, 3 / 2,
        [exactReason abcStr, partialReasonTilde abcStr abcStr]⟩ : SearchResult).table_metadata
          = none ∧ ∃ d, (⟨some mAbc1, none, 3 / 2,
        [exactReason abcStr, partialReasonTilde abcStr abcStr]⟩ : SearchResult).table_description
          = some d ∧ d.source_type = avsStr) := by
  refine (C5_filter_invariant [mAbc1] [] abcStr avsStr 10 (Or.inl rfl) (by decide)).1
    ⟨some mAbc1, none, 3 / 2, [exactReason abcStr, partialReasonTilde abcStr abcStr]⟩ ?_
  simp +decide [search, pySlice, searchRanked, assemble, scoreQuery, keptTokens, tokens,
    tokenizeAux, buildIndex, indexYaml, indexTxt, indexText, indexInsert, indexLookup,
    exactStep, partialStep, scoreUpd, bumpScore, addReason, partialAddReason, getReasons,
    keepResult, yamlByFile, txtByFile, replaceYamlTxt, addToSet, isSub, isPre, isWordChar,
    mAbc1, mkTitleOnly, abcStr, fYaml, avsStr, exactReason,
    partialReasonTilde, partialReasonIn, apos, scoreGe]
  norm_num

/-! ### C6 -/

/-- C6 counterexample: the store holds a correlated pair
(`"orders.yaml"` table record and `"orders.txt"` description record), the
query token `"beta"` appears only in the description, so the index entry is
keyed by `"orders.txt"` — and the returned result carries only the
description, not both records: the `.yaml → .txt` join is one-way. -/
theorem C6_counterexample :
    (search [mOrders] [dOrders] betaStr none 10).map
        (fun r => (r.table_metadata, r.table_description)) = [(none, some dOrders)]
      ∧ replaceYamlTxt mOrders.source_file = dOrders.source_file := by
  constructor <;>
  · simp +decide [search, pySlice, searchRanked, assemble, scoreQuery, keptTokens, tokens,
      tokenizeAux, buildIndex, indexYaml, indexTxt, indexText, indexInsert, indexLookup,
      exactStep, partialStep, scoreUpd, bumpScore, addReason, partialAddReason, getReasons,
      keepResult, yamlByFile, txtByFile, replaceYamlTxt, addToSet, isSub, isPre, isWordChar,
      mOrders, dOrders, mkTitleOnly, alphaStr, betaStr, ordersYaml, ordersTxt, avsStr,
      exactReason, partialReasonTilde, partialReasonIn, apos, scoreGe]

/-- C6 amended: whenever a result resolves a table record, it also carries
the correlated description record when one exists (the index entry was then
keyed by the table record's identifier, and the description is looked up
under its suffix-normalized identifier); an index entry keyed by the
description's identifier yields a description-only result even when the
paired table record is in the store. -/
theorem C6_amended (yaml : List TableMetadata) (txt : List TableDescription)
    (q : Str) (f : Option Str) (k : Int) :
    ∀ r ∈ search yaml txt q f k, ∀ m : TableMetadata, r.table_metadata = some m →
      r.table_description = txtByFile txt (replaceYamlTxt m.source_file) := by
  intro r hr m hm
  obtain ⟨p, hp, hkeep, rfl⟩ := mem_assemble (mem_search hr)
  have hsf : m.source_file = p.1 := (yamlByFile_eq_some (by simpa using hm)).2
  simp [hsf]

/-- C6 amended witness: query `"alpha"` hits the table record's index entry
and the result indeed carries the correlated description. -/
theorem C6_witness :
    (⟨some mOrders, some dOrders, 3 / 2,
        [exactReason alphaStr, partialReasonTilde alphaStr alphaStr]⟩
          : SearchResult).table_description
      = txtByFile [dOrders] (replaceYamlTxt mOrders.source_file) := by
  refine C6_amended [mOrders] [dOrders] alphaStr none 10
    ⟨some mOrders, some dOrders, 3 / 2,
      [exactReason alphaStr, partialReasonTilde alphaStr alphaStr]⟩ ?_ mOrders ?_
  · simp +decide [search, pySlice, searchRanked, assemble, scoreQuery, keptTokens, tokens,
      tokenizeAux, buildIndex, indexYaml, indexTxt, indexText, indexInsert, indexLookup,
      exactStep, partialStep, scoreUpd, bumpScore, addReason, partialAddReason, getReasons,
      keepResult, yamlByFile, txtByFile, replaceYamlTxt, addToSet, isSub, isPre, isWordChar,
      mOrders, dOrders, mkTitleOnly, alphaStr, betaStr, ordersYaml, ordersTxt, avsStr,
      exactReason, partialReasonTilde, partialReasonIn, apos, scoreGe]
    norm_num
  · rfl

/-! ### C7 -/

theorem search_by_column_metadata {cn : Str} {yl : List TableMetadata}
    {txt : List TableDescription} {f : Option Str} {r : SearchResult}
    (h : r ∈ search_by_column cn yl txt f) : ∃ m ∈ yl, r.table_metadata = some m := by
  obtain ⟨m, hm, he⟩ := List.mem_filterMap.mp h
  refine ⟨m, hm, ?_⟩
  split at he
  · split at he
    · obtain rfl := Option.some_injective _ he
      rfl
    · cases he
  · cases he

/-- The head contribution of one table record to `search_by_column`. -/
theorem search_by_column_cons (cn : Str) (a : TableMetadata) (rest : List TableMetadata)
    (txt : List TableDescription) (f : Option Str) :
    search_by_column cn (a :: rest) txt f
      = (if keepMeta f a = true then
           match a.columns.find? (matchesColumn cn) with
           | some c => [(⟨some a, txtByFile txt (replaceYamlTxt a.source_file), 1,
               [columnReason c.name]⟩ : SearchResult)]
           | none => []
         else []) ++ search_by_column cn rest txt f := by
  rw [search_by_column, search_by_column, List.filterMap_cons]
  by_cases hka : keepMeta f a = true
  · rw [if_pos hka, if_pos hka]
    cases a.columns.find? (matchesColumn cn) <;> simp
  · rw [if_neg hka, if_neg hka]
    simp

/-- C7: a table record occurring once in the store, passing the filter,
with at least two columns matching the requested substring, contributes
exactly one result: score `1.0` and one reason naming the first matching
column (the loop breaks at the first match). -/
theorem C7_column_search_dedup (yaml : List TableMetadata) (txt : List TableDescription)
    (f : Option Str) (cn : Str) (m : TableMetadata) (c : ColumnMetadata)
    (hmem : m ∈ yaml) (honce : yaml.count m = 1)
    (hkeep : keepMeta f m = true)
    (hN : 2 ≤ (m.columns.filter (matchesColumn cn)).length)
    (hfind : m.columns.find? (matchesColumn cn) = some c) :
    (search_by_column cn yaml txt f).filter (fun r => decide (r.table_metadata = some m))
      = [⟨some m, txtByFile txt (replaceYamlTxt m.source_file), 1, [columnReason c.name]⟩] := by
  induction yaml with
  | nil => cases hmem
  | cons a rest ih =>
    rw [search_by_column_cons, List.filter_append]
    by_cases ha : a = m
    · subst ha
      have hrest : a ∉ rest := by
        rw [List.count_cons_self] at honce
        exact List.count_eq_zero.mp (by omega)
      have htail : (search_by_column cn rest txt f).filter
          (fun r => decide (r.table_metadata = some a)) = [] := by
        rw [List.filter_eq_nil_iff]
        intro r hr
        obtain ⟨m2, hm2, he2⟩ := search_by_column_metadata hr
        simp only [he2, decide_eq_true_eq, Option.some_inj]
        rintro rfl
        exact hrest hm2
      rw [htail, if_pos hkeep, hfind, List.append_nil, List.filter_cons]
      simp
    · have hmem2 : m ∈ rest := by
        rcases List.mem_cons.mp hmem with h1 | h1
        · exact absurd h1.symm ha
        · exact h1
      have honce2 : rest.count m = 1 := by
        rw [List.count_cons] at honce
        simpa [beq_iff_eq, ha] using honce
      have hhead : (if keepMeta f a = true then
            match a.columns.find? (matchesColumn cn) with
            | some c2 => [(⟨some a, txtByFile txt (replaceYamlTxt a.source_file), 1,
                [columnReason c2.name]⟩ : SearchResult)]
            | none => []
          else []).filter (fun r => decide (r.table_metadata = some m)) = [] := by
        split
        · split
          · simp [ha]
          · rfl
        · rfl
      rw [hhead, List.nil_append]
      exact ih hmem2 honce2

/-- C7 witness: a table with two columns both containing `"id"`. -/
def colId1 : ColumnMetadata := ⟨['u', 'i', 'd'], [], [], [], false⟩
def colId2 : ColumnMetadata := ⟨['p', 'i', 'd'], [], [], [], false⟩
def idStr : Str := ['i', 'd']
def mTwoCols : TableMetadata :=
  ⟨none, [], [], [], [], [], [colId1, colId2], fYaml, avsStr⟩

theorem C7_witness :
    (search_by_column idStr [mTwoCols] [] none).filter
        (fun r => decide (r.table_metadata = some mTwoCols))
      = [⟨some mTwoCols, txtByFile [] (replaceYamlTxt mTwoCols.source_file), 1,
          [columnReason colId1.name]⟩] :=
  C7_column_search_dedup [mTwoCols] [] none idStr mTwoCols colId1
    (by decide) (by decide) (by decide) (by decide) (by decide)

/-! ### C4 -/

/-- C4, evaluated at the failing input: one record titled `"abc"`, query
`"abc abc"`. The reason list of the single result contains each reason
twice — the exact-match reason is never deduplicated, and the partial-match
dedup guard tests for a `"' in '"`-formatted string while the code inserts
a `"' ~ '"`-formatted one, so it never fires. -/
theorem C4_failing_input :
    (search [mAbc1] [] qAbcAbc none 10).map (fun r => r.match_reasons)
        = [[exactReason abcStr, partialReasonTilde abcStr abcStr,
            exactReason abcStr, partialReasonTilde abcStr abcStr]]
      ∧ ¬ ((search [mAbc1] [] qAbcAbc none 10).all
            (fun r => decide r.match_reasons.Nodup)) = true := by
  constructor <;>
  · simp +decide [search, pySlice, searchRanked, assemble, scoreQuery, keptTokens, tokens,
      tokenizeAux, buildIndex, indexYaml, indexTxt, indexText, indexInsert, indexLookup,
      exactStep, partialStep, scoreUpd, bumpScore, addReason, partialAddReason, getReasons,
      keepResult, yamlByFile, txtByFile, replaceYamlTxt, addToSet, isSub, isPre, isWordChar,
      mAbc1, mkTitleOnly, abcStr, qAbcAbc, fYaml, avsStr, exactReason,
      partialReasonTilde, partialReasonIn, apos, scoreGe]

/-! ### C1 -/

def indexKeys (idx : Index) : List Str := idx.map Prod.fst

theorem mem_indexKeys_indexInsert : ∀ {idx : Index} {kw sf x : Str},
    x ∈ indexKeys (indexInsert idx kw sf) → x = kw ∨ x ∈ indexKeys idx := by
  intro idx
  induction idx with
  | nil =>
    intro kw sf x h
    rw [indexInsert] at h
    exact Or.inl (by simpa [indexKeys] using h)
  | cons e rest ih =>
    intro kw sf x h
    obtain ⟨k, fs⟩ := e
    rw [indexInsert] at h
    split at h <;> simp only [indexKeys, List.map_cons, List.mem_cons] at h ⊢
    · tauto
    · rcases h with h1 | h1
      · tauto
      · rcases ih h1 with h2 | h2 <;> simp_all [indexKeys]

theorem nodup_indexKeys_indexInsert : ∀ {idx : Index} {kw sf : Str},
    (indexKeys idx).Nodup → (indexKeys (indexInsert idx kw sf)).Nodup := by
  intro idx
  induction idx with
  | nil =>
    intro kw sf _
    simp [indexInsert, indexKeys]
  | cons e rest ih =>
    intro kw sf h
    obtain ⟨k, fs⟩ := e
    simp only [indexKeys, List.map_cons, List.nodup_cons] at h
    rw [indexInsert]
    split
    · simp only [indexKeys, List.map_cons, List.nodup_cons]
      exact ⟨h.1, h.2⟩
    · simp only [indexKeys, List.map_cons, List.nodup_cons]
      refine ⟨?_, ih h.2⟩
      intro hk
      rcases mem_indexKeys_indexInsert hk with h1 | h1
      · rename_i hne
        exact hne h1
      · exact h.1 h1

theorem nodup_indexKeys_indexText {idx : Index} {t sf : Str}
    (h : (indexKeys idx).Nodup) : (indexKeys (indexText idx t sf)).Nodup :=
  foldl_preserves (fun i => (indexKeys i).Nodup) (fun i kw => indexInsert i kw sf)
    (fun _ _ hi => nodup_indexKeys_indexInsert hi) (keptTokens t) idx h

theorem nodup_indexKeys_indexYaml {idx : Index} {m : TableMetadata}
    (h : (indexKeys idx).Nodup) : (indexKeys (indexYaml idx m)).Nodup := by
  have h1 : (indexKeys (indexText idx m.table_title m.source_file)).Nodup :=
    nodup_indexKeys_indexText h
  have h2 : (indexKeys (indexText (indexText idx m.table_title m.source_file)
      m.table_description m.source_file)).Nodup := nodup_indexKeys_indexText h1
  have h3 : (indexKeys (indexText (indexText (indexText idx m.table_title m.source_file)
      m.table_description m.source_file) m.table_loc m.source_file)).Nodup :=
    nodup_indexKeys_indexText h2
  have p4 := foldl_preserves (fun i => (indexKeys i).Nodup)
    (fun i kw => indexText i kw m.source_file)
    (fun _ _ hi => nodup_indexKeys_indexText hi) m.keywords _ h3
  have p5 := foldl_preserves (fun i => (indexKeys i).Nodup)
    (fun i c => indexText (indexText (indexText i c.name m.source_file) c.title m.source_file)
      c.description m.source_file)
    (fun _ _ hi => nodup_indexKeys_indexText (nodup_indexKeys_indexText
      (nodup_indexKeys_indexText hi))) m.columns _ p4
  simpa [indexYaml] using p5

theorem nodup_indexKeys_indexTxt {idx : Index} {d : TableDescription}
    (h : (indexKeys idx).Nodup) : (indexKeys (indexTxt idx d)).Nodup := by
  have h1 : (indexKeys (indexText idx d.table_name d.source_file)).Nodup :=
    nodup_indexKeys_indexText h
  have h2 : (indexKeys (indexText (indexText idx d.table_name d.source_file)
      d.purpose d.source_file)).Nodup := nodup_indexKeys_indexText h1
  have p3 := foldl_preserves (fun i => (indexKeys i).Nodup)
    (fun i f => indexText i f d.source_file)
    (fun _ _ hi => nodup_indexKeys_indexText hi) (d.key_features ++ d.joinable_features) _ h2
  simpa [indexTxt] using p3

/-- The built index never repeats a token key. -/
theorem nodup_indexKeys_buildIndex (yaml : List TableMetadata) (txt : List TableDescription) :
    (indexKeys (buildIndex yaml txt)).Nodup := by
  rw [buildIndex]
  have hy := foldl_preserves (fun i => (indexKeys i).Nodup) indexYaml
    (fun _ _ hi => nodup_indexKeys_indexYaml hi) yaml [] (by simp [indexKeys])
  exact foldl_preserves (fun i => (indexKeys i).Nodup) indexTxt
    (fun _ _ hi => nodup_indexKeys_indexTxt hi) txt _ hy

theorem partialReasonIn_ne_exactReason (kw ik kw2 : Str) :
    partialReasonIn kw ik ≠ exactReason kw2 := by
  simp [partialReasonIn, exactReason]

/-- Entries of the partial-match scan whose token has no substring relation
with the query token leave the scoring state unchanged. -/
theorem partialFold_skip {kw : Str} : ∀ (l : Index) (st : ScoreState),
    (∀ e ∈ l, (isSub kw e.1 || isSub e.1 kw) = false) →
    l.foldl
      (fun s e =>
        if isSub kw e.1 || isSub e.1 kw then
          e.2.foldl (scoreUpd (1 / 2) (fun s2 sf => partialAddReason s2.file_matches sf kw e.1)) s
        else s) st = st
  | [], st, _ => rfl
  | e :: l, st, h => by
    rw [List.foldl_cons, if_neg (by simp [h e (List.mem_cons_self _ _)])]
    exact partialFold_skip l st (fun x hx => h x (List.mem_cons_of_mem _ hx))

/-- C1 counterexample: a store whose single record's only indexed token is
`"xyz"`, queried with `"xyz"`: the query token matches exactly *and* the
partial-match scan also matches the token against itself (the code does
not exclude the token's own index entry), so the score is `1.5`, not
`1.0` as claimed. -/
theorem C1_counterexample :
    (search [mXyz] [] xyzStr none 10).map (fun r => r.relevance_score) = [3 / 2]
      ∧ (3 / 2 : ℚ) ≠ 1 := by
  constructor
  · simp +decide [search, pySlice, searchRanked, assemble, scoreQuery, keptTokens, tokens,
      tokenizeAux, buildIndex, indexYaml, indexTxt, indexText, indexInsert, indexLookup,
      exactStep, partialStep, scoreUpd, bumpScore, addReason, partialAddReason, getReasons,
      keepResult, yamlByFile, txtByFile, replaceYamlTxt, addToSet, isSub, isPre, isWordChar,
      mXyz, mkTitleOnly, xyzStr, fYaml, avsStr, exactReason,
      partialReasonTilde, partialReasonIn, apos, scoreGe]
    norm_num
  · norm_num

/-- C1 amended: for a single-token query whose token is indexed for exactly
one source file and has no substring relation with any *other* indexed
token, `search` returns exactly one result — that file's records — but with
relevance score `1.5`: `+1.0` from the exact match plus `+0.5` from the
partial-match scan matching the token against its own index entry. -/
theorem C1_amended (yaml : List TableMetadata) (txt : List TableDescription)
    (kw sf : Str) (k : Int)
    (hq : keptTokens kw = [kw])
    (hlook : indexLookup (buildIndex yaml txt) kw = some [sf])
    (hself : ∀ e ∈ buildIndex yaml txt, e.1 ≠ kw →
      isSub kw e.1 = false ∧ isSub e.1 kw = false)
    (hk : 1 ≤ k) :
    search yaml txt kw none k =
      [⟨yamlByFile yaml sf, txtByFile txt (replaceYamlTxt sf), 3 / 2,
        [exactReason kw, partialReasonTilde kw kw]⟩] := by
  have hst1 : exactStep (buildIndex yaml txt) ⟨[], []⟩ kw
      = ⟨[(sf, 1)], [(sf, [exactReason kw])]⟩ := by
    rw [exactStep, hlook]
    simp [scoreUpd, bumpScore, addReason]
  have hmem : (kw, [sf]) ∈ buildIndex yaml txt := indexLookup_mem hlook
  obtain ⟨l1, l2, hsplit⟩ := List.append_of_mem hmem
  have hnd : (indexKeys (buildIndex yaml txt)).Nodup := nodup_indexKeys_buildIndex yaml txt
  rw [hsplit] at hnd
  have hnd2 : (indexKeys l1 ++ kw :: indexKeys l2).Nodup := by
    simpa [indexKeys] using hnd
  have hkw1 : kw ∉ indexKeys l1 := by
    have hdisj := (List.nodup_append.mp hnd2).2.2
    intro hmem1
    exact hdisj hmem1 (List.mem_cons_self _ _)
  have hkw2 : kw ∉ indexKeys l2 := by
    have := (List.nodup_append.mp hnd2).2.1
    exact (List.nodup_cons.mp this).1
  have hskip1 : ∀ e ∈ l1, (isSub kw e.1 || isSub e.1 kw) = false := by
    intro e he
    have hne : e.1 ≠ kw := by
      intro hek
      exact hkw1 (hek ▸ List.mem_map_of_mem Prod.fst he)
    have := hself e (by rw [hsplit]; exact List.mem_append.mpr (Or.inl he)) hne
    simp [this.1, this.2]
  have hskip2 : ∀ e ∈ l2, (isSub kw e.1 || isSub e.1 kw) = false := by
    intro e he
    have hne : e.1 ≠ kw := by
      intro hek
      exact hkw2 (hek ▸ List.mem_map_of_mem Prod.fst he)
    have := hself e (by rw [hsplit]; exact List.mem_append.mpr (Or.inr (List.mem_cons_of_mem _ he))) hne
    simp [this.1, this.2]
  have hstate : scoreQuery (buildIndex yaml txt) kw
      = ⟨[(sf, 1 + 1 / 2)], [(sf, [exactReason kw, partialReasonTilde kw kw])]⟩ := by
    rw [scoreQuery, hq, List.foldl_cons, List.foldl_nil, hst1, partialStep, hsplit,
      List.foldl_append, partialFold_skip l1 _ hskip1, List.foldl_cons,
      if_pos (by simp [isSub_self])]
    rw [List.foldl_cons, List.foldl_nil]
    have hupd : scoreUpd (1 / 2)
        (fun s2 sf2 => partialAddReason s2.file_matches sf2 kw kw)
        ⟨[(sf, 1)], [(sf, [exactReason kw])]⟩ sf
        = ⟨[(sf, 1 + 1 / 2)], [(sf, [exactReason kw, partialReasonTilde kw kw])]⟩ := by
      rw [scoreUpd]
      congr 1
      · simp [bumpScore]
      · rw [partialAddReason]
        rw [if_neg (by simp [getReasons, partialReasonIn_ne_exactReason])]
        simp [addReason]
    rw [hupd]
    exact partialFold_skip l2 _ hskip2
  rw [search, searchRanked, hstate]
  have hasm : assemble yaml txt none ⟨[(sf, 1 + 1 / 2)],
      [(sf, [exactReason kw, partialReasonTilde kw kw])]⟩
      = [⟨yamlByFile yaml sf, txtByFile txt (replaceYamlTxt sf), 1 + 1 / 2,
          [exactReason kw, partialReasonTilde kw kw]⟩] := by
    simp [assemble, keepResult, getReasons]
  rw [hasm]
  have hsort : List.insertionSort scoreGe
      [(⟨yamlByFile yaml sf, txtByFile txt (replaceYamlTxt sf), 1 + 1 / 2,
        [exactReason kw, partialReasonTilde kw kw]⟩ : SearchResult)]
      = [⟨yamlByFile yaml sf, txtByFile txt (replaceYamlTxt sf), 1 + 1 / 2,
          [exactReason kw, partialReasonTilde kw kw]⟩] := by
    simp
  rw [hsort, pySlice, if_pos (by omega)]
  rw [List.take_of_length_le (by simp; omega)]
  norm_num

/-- C1 amended witness: the `"xyz"` store and query, `max_results = 10`. -/
theorem C1_witness :
    keptTokens xyzStr = [xyzStr]
      ∧ indexLookup (buildIndex [mXyz] []) xyzStr = some [fYaml]
      ∧ search [mXyz] [] xyzStr none 10 =
          [⟨yamlByFile [mXyz] fYaml, txtByFile [] (replaceYamlTxt fYaml), 3 / 2,
            [exactReason xyzStr, partialReasonTilde xyzStr xyzStr]⟩] :=
  ⟨by decide, by decide,
    C1_amended [mXyz] [] xyzStr fYaml 10 (by decide) (by decide) (by decide) (by decide)⟩

end SearchSpec
